import Mathlib

/-!
Verification of the logo-paster compositing core and batch pipeline.

The definitions below are shallow embeddings of the functions in
`overlay_logo.py` and `image_analyzer.py`: Python machine integers become
`ℤ`/`ℕ`, Python floats entering integer conversions are modelled as exact
rationals `ℚ`, Python strings become `List Char`, and the side-effecting
batch driver becomes a pure function producing an event trace.
-/

set_option maxHeartbeats 1000000

namespace LogoPaster

/-! ### Positioning calculator (`_calculate_position` in overlay_logo.py) -/

inductive VerticalPosition where
  | top
  | bottom
deriving DecidableEq

inductive HorizontalPosition where
  | left
  | center
  | right
deriving DecidableEq

/-- Embedding of `_calculate_position`: Python `//` on ints is floor
division, i.e. `Int.fdiv`. -/
def _calculate_position (im_width im_height logo_width logo_height : ℤ)
    (vertical_pos : VerticalPosition) (horizontal_pos : HorizontalPosition)
    (padding : ℤ) : ℤ × ℤ :=
  let x : ℤ :=
    match horizontal_pos with
    | .left => padding
    | .right => im_width - logo_width - padding
    | .center => Int.fdiv (im_width - logo_width) 2
  let y : ℤ :=
    match vertical_pos with
    | .top => padding
    | .bottom => im_height - logo_height - padding
  (x, y)

theorem fdiv_two_eq_floor (a : ℤ) : Int.fdiv a 2 = ⌊(a : ℚ) / 2⌋ := by
  rw [Int.fdiv_eq_ediv a (by norm_num)]
  have h := Rat.floor_intCast_div_natCast a 2
  simp only [Nat.cast_ofNat] at h
  omega

/-- Claim C2: the positioning calculator returns x = padding for LEFT,
x = imageW - logoW - padding for RIGHT, x = floor((imageW - logoW) / 2)
for CENTER, y = padding for TOP and y = imageH - logoH - padding for
BOTTOM, with no clamping of possibly negative coordinates. -/
theorem C2_position_formulas (imW imH logoW logoH padding : ℤ)
    (v : VerticalPosition) (h : HorizontalPosition) :
    _calculate_position imW imH logoW logoH v h padding =
      ((match h with
        | .left => padding
        | .right => imW - logoW - padding
        | .center => ⌊((imW : ℚ) - (logoW : ℚ)) / 2⌋),
       (match v with
        | .top => padding
        | .bottom => imH - logoH - padding)) := by
  cases h <;> cases v <;>
    simp only [_calculate_position, fdiv_two_eq_floor, Int.cast_sub, Prod.mk.injEq]

/-! ### Logo resizing (`_process_logo_on_image`, lines 206-210)

`int()` in Python truncates toward zero; `py_int` embeds that. -/

/-- Python `int()` applied to an exact rational: truncation toward zero. -/
def py_int (q : ℚ) : ℤ :=
  if 0 ≤ q then ⌊q⌋ else ⌈q⌉

/-- Embedding of the resize-dimension computation:
`new_width = int(im_width * logo_scale)`,
`scale_factor = new_width / logo_width`,
`new_height = int(logo_height * scale_factor)`. -/
def resize_dims (im_width logo_width logo_height : ℕ) (logo_scale : ℚ) : ℤ × ℤ :=
  let new_width : ℤ := py_int ((im_width : ℚ) * logo_scale)
  let scale_factor : ℚ := (new_width : ℚ) / (logo_width : ℚ)
  let new_height : ℤ := py_int ((logo_height : ℚ) * scale_factor)
  (new_width, new_height)

/-- Claim C3 counterexample: for a 100-px-wide base image, scale 1/2 and an
8×3 logo the code computes height `int(3 * 50/8) = int(18.75) = 18`,
whereas the claimed `round(logo.height * (newWidth / logo.width))` is 19. -/
theorem C3_counterexample :
    (resize_dims 100 8 3 (1/2)).1 = 50 ∧
    (resize_dims 100 8 3 (1/2)).2 = 18 ∧
    round ((3 : ℚ) * (((resize_dims 100 8 3 (1/2)).1 : ℚ) / (8 : ℚ))) = 19 ∧
    (18 : ℤ) ≠ 19 := by
  have h1 : (resize_dims 100 8 3 (1/2)).1 = 50 := by
    norm_num [resize_dims, py_int]
  have h2 : (resize_dims 100 8 3 (1/2)).2 = 18 := by
    norm_num [resize_dims, py_int]
  refine ⟨h1, h2, ?_, by norm_num⟩
  rw [h1]
  norm_num [round_eq]

/-- Claim C3 (amended): the resized width is `⌊imageW * logoScale⌋` and the
resized height is the *truncation* (= floor, the operands being
non-negative) of `logoH * (newWidth / logoW)`, not its rounding; the height
stays within one pixel of the exact aspect-preserving value. -/
theorem C3_resize_truncates (imW logoW logoH : ℕ) (s : ℚ)
    (hW : 0 < logoW) (hs : 0 < s) (hs1 : s ≤ 1) :
    (resize_dims imW logoW logoH s).1 = ⌊(imW : ℚ) * s⌋ ∧
    (resize_dims imW logoW logoH s).2 =
      ⌊(logoH : ℚ) * (((resize_dims imW logoW logoH s).1 : ℚ) / (logoW : ℚ))⌋ ∧
    (logoH : ℚ) * (((resize_dims imW logoW logoH s).1 : ℚ) / (logoW : ℚ)) - 1 <
      ((resize_dims imW logoW logoH s).2 : ℚ) ∧
    ((resize_dims imW logoW logoH s).2 : ℚ) ≤
      (logoH : ℚ) * (((resize_dims imW logoW logoH s).1 : ℚ) / (logoW : ℚ)) := by
  have hprod : (0 : ℚ) ≤ (imW : ℚ) * s :=
    mul_nonneg (by positivity) (le_of_lt hs)
  have hw1 : (resize_dims imW logoW logoH s).1 = ⌊(imW : ℚ) * s⌋ := by
    simp only [resize_dims, py_int, if_pos hprod]
  have hwnn : (0 : ℤ) ≤ (resize_dims imW logoW logoH s).1 := by
    rw [hw1]
    exact Int.floor_nonneg.mpr hprod
  have hhprod : (0 : ℚ) ≤ (logoH : ℚ) * (((resize_dims imW logoW logoH s).1 : ℚ) / (logoW : ℚ)) := by
    apply mul_nonneg (by positivity)
    apply div_nonneg _ (by positivity)
    exact_mod_cast hwnn
  have hh1 : (resize_dims imW logoW logoH s).2 =
      ⌊(logoH : ℚ) * (((resize_dims imW logoW logoH s).1 : ℚ) / (logoW : ℚ))⌋ := by
    have : (resize_dims imW logoW logoH s).2 =
        py_int ((logoH : ℚ) * (((resize_dims imW logoW logoH s).1 : ℚ) / (logoW : ℚ))) := by
      simp only [resize_dims, py_int]
    rw [this, py_int, if_pos hhprod]
  refine ⟨hw1, hh1, ?_, ?_⟩
  · rw [hh1]
    have := Int.sub_one_lt_floor
      ((logoH : ℚ) * (((resize_dims imW logoW logoH s).1 : ℚ) / (logoW : ℚ)))
    linarith
  · rw [hh1]
    exact Int.floor_le _

/-- Witness for C3 (Scenario A of the spec): an 800-px base, 200×100 logo
and scale 1/4 resize to exactly 200×100. -/
theorem C3_resize_truncates_witness :
    (resize_dims 800 200 100 (1/4)).1 = ⌊(800 : ℚ) * (1/4)⌋ ∧
    resize_dims 800 200 100 (1/4) = (200, 100) := by
  constructor
  · exact (C3_resize_truncates 800 200 100 (1/4) (by norm_num) (by norm_num) (by norm_num)).1
  · norm_num [resize_dims, py_int]

/-! ### Opacity and compositing (`_process_logo_on_image`, lines 213-233)

Images are modelled as flat RGBA sample buffers.  `result_im.paste(logo,
position, logo)` is Pillow paste-with-mask: inside the logo's footprint each
destination band is blended with the source band using the mask (the logo's
own alpha); outside the footprint the base is untouched.  The buffer model
keeps the footprint as the first `logo.length` samples. -/

structure RGBA where
  r : ℕ
  g : ℕ
  b : ℕ
  a : ℕ
deriving DecidableEq

/-- Embeds `logo_with_opacity.split()[-1]`: the alpha band. -/
def split_alpha (img : List RGBA) : List ℕ :=
  img.map (fun p => p.a)

/-- Embeds `alpha.point(lambda p: int(p * opacity))`. -/
def point_opacity (alpha : List ℕ) (opacity : ℚ) : List ℕ :=
  alpha.map (fun p => (py_int ((p : ℚ) * opacity)).toNat)

/-- Embeds `logo_with_opacity.putalpha(alpha)`. -/
def putalpha (img : List RGBA) (alpha : List ℕ) : List RGBA :=
  List.zipWith (fun p na => { p with a := na }) img alpha

/-- The opacity step of `_process_logo_on_image`: taken only when
`opacity < 1.0`, on a copy of the resized logo. -/
def apply_opacity (logo : List RGBA) (opacity : ℚ) : List RGBA :=
  if opacity < 1 then
    putalpha logo (point_opacity (split_alpha logo) opacity)
  else
    logo

/-- One blended band sample: `src*mask/255 + dst*(255-mask)/255`. -/
def blend_band (s d mask : ℕ) : ℕ :=
  (s * mask + d * (255 - mask)) / 255

/-- Paste-with-mask at one sample, the mask being the logo's own alpha. -/
def paste_px (dst src : RGBA) : RGBA :=
  { r := blend_band src.r dst.r src.a
    g := blend_band src.g dst.g src.a
    b := blend_band src.b dst.b src.a
    a := blend_band src.a dst.a src.a }

/-- Embeds `result_im.paste(logo, position, logo)` on the buffer model: the first
`logo.length` base samples are blended, the rest are untouched. -/
def paste_with_mask (im logo : List RGBA) : List RGBA :=
  List.zipWith paste_px im logo ++ im.drop logo.length

/-- Claim C4: with `opacity < 1.0` every alpha sample `p` of the resized
logo becomes `int(p * opacity)` (truncation) while the color bands are
untouched and the input logo is not mutated; with `opacity == 1.0` the
branch is not taken, so the logo is unchanged and compositing equals
compositing with the unmodified logo. -/
theorem split_alpha_putalpha_point (l : List RGBA) (op : ℚ) :
    split_alpha (putalpha l (point_opacity (split_alpha l) op)) =
      l.map (fun p => (py_int ((p.a : ℚ) * op)).toNat) := by
  induction l with
  | nil => rfl
  | cons p rest ih =>
    simpa [putalpha, point_opacity, split_alpha] using ih

theorem rgb_putalpha_point (l : List RGBA) (op : ℚ) :
    (putalpha l (point_opacity (split_alpha l) op)).map (fun p => (p.r, p.g, p.b)) =
      l.map (fun p => (p.r, p.g, p.b)) := by
  induction l with
  | nil => rfl
  | cons p rest ih =>
    simpa [putalpha, point_opacity, split_alpha] using ih

theorem C4_opacity (im logo : List RGBA) (opacity : ℚ) :
    (opacity < 1 →
      split_alpha (apply_opacity logo opacity) =
        logo.map (fun p => (py_int ((p.a : ℚ) * opacity)).toNat) ∧
      (apply_opacity logo opacity).map (fun p => (p.r, p.g, p.b)) =
        logo.map (fun p => (p.r, p.g, p.b))) ∧
    apply_opacity logo 1 = logo ∧
    paste_with_mask im (apply_opacity logo 1) = paste_with_mask im logo := by
  have hone : apply_opacity logo 1 = logo := by
    simp [apply_opacity]
  refine ⟨?_, hone, by rw [hone]⟩
  intro hlt
  have hput : apply_opacity logo opacity =
      putalpha logo (point_opacity (split_alpha logo) opacity) := by
    simp [apply_opacity, hlt]
  constructor
  · rw [hput]
    exact split_alpha_putalpha_point logo opacity
  · rw [hput]
    exact rgb_putalpha_point logo opacity

/-- Witness for C4 (Scenario B): at opacity 1/2, a fully opaque sample
(255) becomes 127 and the color bands survive. -/
theorem C4_opacity_witness :
    split_alpha (apply_opacity [⟨10, 20, 30, 255⟩] (1/2)) = [127] ∧
    (apply_opacity [⟨10, 20, 30, 255⟩] (1/2)).map (fun p => (p.r, p.g, p.b)) =
      [(10, 20, 30)] := by
  obtain ⟨h1, h2⟩ := (C4_opacity [] [⟨10, 20, 30, 255⟩] (1/2)).1 (by norm_num)
  constructor
  · rw [h1]
    have h127 : py_int ((255 : ℚ) * (1/2)) = 127 := by
      norm_num [py_int]
    rw [show ((255 : ℚ) * (1/2)) = 255 * 2⁻¹ by norm_num] at h127
    simp [h127]
  · rw [h2]
    simp

/-! ### Retry policy (`simple_retry` in image_analyzer.py)

One attempt either returns a value or raises an exception carrying an
optional HTTP status and an optional parsed Retry-After hint.  The random
draws of `random.random()` are an explicit input stream `rand`; each sleep
is recorded as `base * (0.8 + 0.4 * rand attempt)`. -/

inductive CallResult (α : Type) where
  | ok : α → CallResult α
  | err : Option ℕ → Option ℚ → CallResult α
deriving DecidableEq

inductive RetryResult (α : Type) where
  | success : α → RetryResult α
  | raised : Option ℕ → Option ℚ → RetryResult α
  | fellThrough : RetryResult α
deriving DecidableEq

def transient_statuses : List ℕ := [429, 500, 502, 503, 504]

/-- Embeds `status in (429, 500, 502, 503, 504) or status is None`. -/
def is_transient (status : Option ℕ) : Bool :=
  match status with
  | none => true
  | some s => decide (s ∈ transient_statuses)

/-- The loop body of `simple_retry` from the attempt index on; `fuel` is
the number of loop iterations left (`max_retries - attempt`). -/
def simple_retry_from {α : Type} (call : ℕ → CallResult α) (rand : ℕ → ℚ)
    (max_retries : ℕ) : ℕ → ℕ → RetryResult α × List ℚ
  | _, 0 => (.fellThrough, [])
  | attempt, fuel + 1 =>
    match call attempt with
    | .ok v => (.success v, [])
    | .err status retry_after =>
      if attempt = max_retries - 1 ∨ is_transient status = false then
        (.raised status retry_after, [])
      else
        let base : ℚ := retry_after.getD (1 * 2 ^ attempt)
        let rest := simple_retry_from call rand max_retries (attempt + 1) fuel
        (rest.1, base * (4/5 + 2/5 * rand attempt) :: rest.2)

/-- Embedding of `simple_retry(call, max_retries=...)`. -/
def simple_retry {α : Type} (call : ℕ → CallResult α) (rand : ℕ → ℚ)
    (max_retries : ℕ) : RetryResult α × List ℚ :=
  simple_retry_from call rand max_retries 0 max_retries

/-- Claim C5: with three attempts, 429 twice then success sleeps exactly
twice — the Retry-After hint when present, else `2^attempt`, times a
jitter factor in [0.8, 1.2] — and returns the result; a non-transient
status propagates at once with no sleep, as does any failure on the final
attempt. -/
theorem C5_retry (α : Type) (v : α) (call : ℕ → CallResult α) (rand : ℕ → ℚ)
    (hrand : ∀ i, 0 ≤ rand i ∧ rand i < 1) :
    (∀ ra0 ra1, call 0 = .err (some 429) ra0 → call 1 = .err (some 429) ra1 →
      call 2 = .ok v →
      simple_retry call rand 3 =
        (.success v, [ra0.getD 1 * (4/5 + 2/5 * rand 0),
                      ra1.getD 2 * (4/5 + 2/5 * rand 1)])) ∧
    (∀ i, 4/5 ≤ 4/5 + 2/5 * rand i ∧ 4/5 + 2/5 * rand i < 6/5) ∧
    (∀ s ra m, s ∉ transient_statuses → call 0 = .err (some s) ra → 1 ≤ m →
      simple_retry call rand m = (.raised (some s) ra, [])) ∧
    (∀ ra0 ra1 st2 ra2, call 0 = .err (some 429) ra0 →
      call 1 = .err (some 429) ra1 → call 2 = .err st2 ra2 →
      simple_retry call rand 3 =
        (.raised st2 ra2, [ra0.getD 1 * (4/5 + 2/5 * rand 0),
                           ra1.getD 2 * (4/5 + 2/5 * rand 1)])) := by
  refine ⟨?_, ?_, ?_, ?_⟩
  · intro ra0 ra1 h0 h1 h2
    simp [simple_retry, simple_retry_from, h0, h1, h2, is_transient,
      transient_statuses]
  · intro i
    obtain ⟨hl, hu⟩ := hrand i
    constructor <;> linarith
  · intro s ra m hs h0 hm
    obtain ⟨m', rfl⟩ := Nat.exists_eq_add_of_le hm
    have htr : is_transient (some s) = false := by
      simp [is_transient, hs]
    simp [simple_retry, Nat.add_comm 1 m', simple_retry_from, h0, htr]
  · intro ra0 ra1 st2 ra2 h0 h1 h2
    simp [simple_retry, simple_retry_from, h0, h1, h2, is_transient,
      transient_statuses]

/-- Witness for C5 (Scenario C): 429 with hint 5, then 429 with no hint,
then success; with jitter draws 1/2 the sleeps evaluate to 5 and 2. -/
theorem C5_retry_witness :
    simple_retry
        (fun i => if i = 0 then CallResult.err (some 429) (some 5)
                  else if i = 1 then CallResult.err (some 429) none
                  else CallResult.ok 42)
        (fun _ => (1 : ℚ)/2) 3 = (.success 42, [5, 2]) := by
  have h := (C5_retry ℕ 42
      (fun i => if i = 0 then CallResult.err (some 429) (some 5)
                else if i = 1 then CallResult.err (some 429) none
                else CallResult.ok 42)
      (fun _ => (1 : ℚ)/2)
      (fun _ => by norm_num)).1 (some 5) none rfl rfl rfl
  rw [h]
  norm_num

/-! ### Filename sanitizer (`_clean_filename` in image_analyzer.py)

Python strings become `List Char`.  `str.strip(chars)` removes *all*
leading and trailing characters of the set; `re.sub(r'[_-]+', '_', s)`
replaces every maximal run of `_`/`-` by a single `_`. -/

/-- The apostrophe character stripped by `.strip("'")`. -/
def squote : Char := Char.ofNat 39

/-- The whitespace characters removed by `str.strip()` (ASCII range). -/
def isPyWhitespace (c : Char) : Bool :=
  c == ' ' || c == '\t' || c == '\n' || c == '\r' || c == '\x0b' || c == '\x0c'

/-- The `[_-]` character class. -/
def is_sep (c : Char) : Bool :=
  c == '_' || c == '-'

/-- The `[a-zA-Z0-9_-]` character class kept by the filtering `re.sub`. -/
def is_allowed (c : Char) : Bool :=
  c.isAlpha || c.isDigit || c == '_' || c == '-'

/-- A character that can appear in a core-sanitized result: letters,
digits, or underscore. -/
def is_clean_char (c : Char) : Bool :=
  c.isAlpha || c.isDigit || c == '_'

/-- Embeds `str.rstrip(chars)`: drop the maximal trailing run of characters
satisfying `p`. -/
def py_rstrip (p : Char → Bool) : List Char → List Char
  | [] => []
  | c :: rest =>
    let r := py_rstrip p rest
    if r.isEmpty && p c then [] else c :: r

/-- Embeds `str.strip(chars)`: drop the maximal leading and trailing runs. -/
def py_strip (p : Char → Bool) (s : List Char) : List Char :=
  py_rstrip p (s.dropWhile p)

/-- Embeds `re.sub(r'[_-]+', '_', s)`: the flag records whether the previous
character was part of a separator run already replaced. -/
def collapse_aux : List Char → Bool → List Char
  | [], _ => []
  | c :: rest, prev =>
    if is_sep c then
      if prev then collapse_aux rest true
      else '_' :: collapse_aux rest true
    else c :: collapse_aux rest false

def collapse_runs (s : List Char) : List Char :=
  collapse_aux s false

/-- Steps 1-6 of `_clean_filename` (everything except the final
too-short fallback): strip whitespace, strip `"`, strip `'`, replace
spaces by underscores, drop disallowed characters, collapse separator
runs, strip edge separators, truncate and re-strip the trailing edge. -/
def _clean_filename_core (filename : List Char) (max_length : ℕ) : List Char :=
  let f1 := py_strip isPyWhitespace filename
  let f2 := py_strip (fun c => c == '"') f1
  let f3 := py_strip (fun c => c == squote) f2
  let f4 := f3.map (fun c => if c == ' ' then '_' else c)
  let f5 := f4.filter is_allowed
  let f6 := collapse_runs f5
  let f7 := py_strip is_sep f6
  if max_length < f7.length then py_rstrip is_sep (f7.take max_length) else f7

/-- Embedding of `_clean_filename(filename, max_length, orig_filename)`. -/
def _clean_filename (filename : List Char) (max_length : ℕ)
    (orig_filename : List Char) : List Char :=
  let f := _clean_filename_core filename max_length
  if f.length < 3 then orig_filename else f

/-- Embeds `Path(image_path).name.split('.')[0]` (line 150 of
image_analyzer.py): the part of the base filename before its *first*
dot, which `analyze_image` passes to `_clean_filename` as the fallback. -/
def analyze_image_orig_filename (image_name : List Char) : List Char :=
  image_name.takeWhile (fun c => c != '.')

/-- Modelled from the spec: the *stem* of a filename, "a filename
without its extension" (glossary), i.e. the part before the *last* dot
when one exists.  Used only to compare the code's fallback against the
spec's words. -/
def spec_stem (name : List Char) : List Char :=
  if name.contains '.' then
    ((name.reverse.dropWhile (fun c => c != '.')).drop 1).reverse
  else
    name

/-! Helper lemmas about the string primitives, used to settle the
sanitizer claims. -/

theorem getLast?_mem' {l : List Char} {c : Char} (h : l.getLast? = some c) : c ∈ l := by
  obtain ⟨hne, rfl⟩ := List.mem_getLast?_eq_getLast (show c ∈ l.getLast? by rw [h]; rfl)
  exact List.getLast_mem hne

theorem py_rstrip_cons (p : Char → Bool) (a : Char) (rest : List Char) :
    py_rstrip p (a :: rest) =
      if (py_rstrip p rest).isEmpty && p a then [] else a :: py_rstrip p rest := rfl

theorem py_rstrip_subset (p : Char → Bool) (s : List Char) :
    ∀ c ∈ py_rstrip p s, c ∈ s := by
  induction s with
  | nil => simp [py_rstrip]
  | cons a rest ih =>
    intro c hc
    simp only [py_rstrip] at hc
    by_cases h : (py_rstrip p rest).isEmpty && p a
    · rw [if_pos h] at hc
      cases hc
    · rw [if_neg h] at hc
      rcases List.mem_cons.mp hc with h1 | h2
      · exact List.mem_cons.mpr (Or.inl h1)
      · exact List.mem_cons.mpr (Or.inr (ih c h2))

theorem py_rstrip_getLast (p : Char → Bool) (s : List Char) :
    ∀ c, (py_rstrip p s).getLast? = some c → p c = false := by
  induction s with
  | nil => intro c hc; simp [py_rstrip] at hc
  | cons a rest ih =>
    intro c hc
    simp only [py_rstrip] at hc
    by_cases h : (py_rstrip p rest).isEmpty && p a
    · rw [if_pos h] at hc
      simp at hc
    · rw [if_neg h] at hc
      cases hr : py_rstrip p rest with
      | nil =>
        rw [hr] at hc h
        simp at hc h
        simp_all
      | cons b t =>
        rw [hr] at hc
        rw [List.getLast?_cons_cons] at hc
        exact ih c (by rw [hr]; exact hc)

theorem py_rstrip_eq_self (p : Char → Bool) (s : List Char)
    (h : ∀ c, s.getLast? = some c → p c = false) : py_rstrip p s = s := by
  induction s with
  | nil => rfl
  | cons a rest ih =>
    cases rest with
    | nil =>
      have ha := h a (by simp)
      simp [py_rstrip, ha]
    | cons b t =>
      have hr : py_rstrip p (b :: t) = b :: t := by
        apply ih
        intro c hc
        exact h c (by rw [List.getLast?_cons_cons]; exact hc)
      rw [py_rstrip_cons, hr]
      simp

theorem py_rstrip_eq_self_of_all (p : Char → Bool) (s : List Char)
    (h : ∀ c ∈ s, p c = false) : py_rstrip p s = s :=
  py_rstrip_eq_self p s (fun c hc => h c (getLast?_mem' hc))

theorem py_rstrip_head (p : Char → Bool) (s : List Char) :
    py_rstrip p s = [] ∨ (py_rstrip p s).head? = s.head? := by
  cases s with
  | nil => exact Or.inl rfl
  | cons a rest =>
    simp only [py_rstrip]
    by_cases h : (py_rstrip p rest).isEmpty && p a
    · rw [if_pos h]
      exact Or.inl rfl
    · rw [if_neg h]
      exact Or.inr rfl

theorem py_rstrip_length (p : Char → Bool) (s : List Char) :
    (py_rstrip p s).length ≤ s.length := by
  induction s with
  | nil => simp [py_rstrip]
  | cons a rest ih =>
    simp only [py_rstrip]
    by_cases h : (py_rstrip p rest).isEmpty && p a
    · rw [if_pos h]
      simp
    · rw [if_neg h]
      simpa using ih

theorem dropWhile_eq_self_of_all (p : Char → Bool) (s : List Char)
    (h : ∀ c ∈ s, p c = false) : s.dropWhile p = s := by
  cases s with
  | nil => rfl
  | cons a rest =>
    rw [List.dropWhile_cons, h a (List.mem_cons_self a rest)]
    simp

theorem dropWhile_head_false (p : Char → Bool) (s : List Char) :
    ∀ d, (s.dropWhile p).head? = some d → p d = false := by
  induction s with
  | nil => intro d hd; simp at hd
  | cons a rest ih =>
    intro d hd
    rw [List.dropWhile_cons] at hd
    by_cases h : p a = true
    · rw [if_pos h] at hd
      exact ih d hd
    · rw [if_neg h] at hd
      simp at hd
      rw [← hd]
      simpa using h

theorem py_strip_eq_self_of_all (p : Char → Bool) (s : List Char)
    (h : ∀ c ∈ s, p c = false) : py_strip p s = s := by
  rw [py_strip, dropWhile_eq_self_of_all p s h, py_rstrip_eq_self_of_all p s h]

theorem map_id_of_mem (f : Char → Char) (s : List Char)
    (h : ∀ c ∈ s, f c = c) : s.map f = s := by
  induction s with
  | nil => rfl
  | cons a rest ih =>
    rw [List.map_cons, h a (List.mem_cons_self a rest),
      ih (fun c hc => h c (List.mem_cons_of_mem a hc))]

/-- No two adjacent separator characters. -/
def no_adj_sep : List Char → Bool
  | c :: d :: rest => (!(is_sep c && is_sep d)) && no_adj_sep (d :: rest)
  | _ => true

theorem no_adj_sep_cons_iff (c : Char) (s : List Char) :
    no_adj_sep (c :: s) = true ↔
      no_adj_sep s = true ∧
        ∀ d, s.head? = some d → ¬(is_sep c = true ∧ is_sep d = true) := by
  cases s with
  | nil => simp [no_adj_sep]
  | cons d t =>
    show ((!(is_sep c && is_sep d)) && no_adj_sep (d :: t)) = true ↔ _
    simp only [Bool.and_eq_true, Bool.not_eq_true', Bool.and_eq_false_iff,
      List.head?_cons, Option.some.injEq]
    constructor
    · rintro ⟨h1, h2⟩
      refine ⟨h2, ?_⟩
      rintro e rfl ⟨hc, hd⟩
      rcases h1 with h | h
      · rw [hc] at h; cases h
      · rw [hd] at h; cases h
    · rintro ⟨h1, h2⟩
      refine ⟨?_, h1⟩
      by_cases hc : is_sep c = true
      · by_cases hd : is_sep d = true
        · exact absurd ⟨hc, hd⟩ (h2 d rfl)
        · exact Or.inr (by simpa using hd)
      · exact Or.inl (by simpa using hc)

theorem no_adj_sep_tail (c : Char) (s : List Char) (h : no_adj_sep (c :: s) = true) :
    no_adj_sep s = true :=
  ((no_adj_sep_cons_iff c s).mp h).1

theorem head?_take (n : ℕ) (s : List Char) (d : Char)
    (h : (s.take n).head? = some d) : s.head? = some d := by
  cases s with
  | nil => simp at h
  | cons b t =>
    cases n with
    | zero => simp at h
    | succ k => simpa using h

theorem no_adj_sep_take (n : ℕ) (s : List Char) (h : no_adj_sep s = true) :
    no_adj_sep (s.take n) = true := by
  induction s generalizing n with
  | nil => simp [no_adj_sep]
  | cons c rest ih =>
    cases n with
    | zero => rfl
    | succ k =>
      rw [List.take_succ_cons, no_adj_sep_cons_iff]
      obtain ⟨h1, h2⟩ := (no_adj_sep_cons_iff c rest).mp h
      exact ⟨ih k h1, fun d hd => h2 d (head?_take k rest d hd)⟩

theorem no_adj_sep_dropWhile (p : Char → Bool) (s : List Char)
    (h : no_adj_sep s = true) : no_adj_sep (s.dropWhile p) = true := by
  induction s with
  | nil => exact h
  | cons c rest ih =>
    rw [List.dropWhile_cons]
    by_cases hp : p c = true
    · rw [if_pos hp]
      exact ih (no_adj_sep_tail c rest h)
    · rw [if_neg hp]
      exact h

theorem no_adj_sep_py_rstrip (p : Char → Bool) (s : List Char)
    (h : no_adj_sep s = true) : no_adj_sep (py_rstrip p s) = true := by
  induction s with
  | nil => exact h
  | cons c rest ih =>
    obtain ⟨h1, h2⟩ := (no_adj_sep_cons_iff c rest).mp h
    rw [py_rstrip_cons]
    by_cases hc : (py_rstrip p rest).isEmpty && p c
    · rw [if_pos hc]
      rfl
    · rw [if_neg hc]
      rw [no_adj_sep_cons_iff]
      refine ⟨ih h1, ?_⟩
      intro d hd
      rcases py_rstrip_head p rest with hnil | hhd
      · rw [hnil] at hd
        simp at hd
      · rw [hhd] at hd
        exact h2 d hd

theorem collapse_aux_head_true (s : List Char) :
    ∀ d, (collapse_aux s true).head? = some d → is_sep d = false := by
  induction s with
  | nil => intro d hd; simp [collapse_aux] at hd
  | cons a rest ih =>
    intro d hd
    by_cases ha : is_sep a = true
    · have : collapse_aux (a :: rest) true = collapse_aux rest true := by
        simp [collapse_aux, ha]
      rw [this] at hd
      exact ih d hd
    · have : collapse_aux (a :: rest) true = a :: collapse_aux rest false := by
        simp [collapse_aux, ha]
      rw [this] at hd
      simp at hd
      rw [← hd]
      simpa using ha

theorem collapse_aux_no_adj (s : List Char) : ∀ b, no_adj_sep (collapse_aux s b) = true := by
  induction s with
  | nil => intro b; rfl
  | cons a rest ih =>
    intro b
    by_cases ha : is_sep a = true
    · cases b with
      | true =>
        have : collapse_aux (a :: rest) true = collapse_aux rest true := by
          simp [collapse_aux, ha]
        rw [this]
        exact ih true
      | false =>
        have : collapse_aux (a :: rest) false = '_' :: collapse_aux rest true := by
          simp [collapse_aux, ha]
        rw [this, no_adj_sep_cons_iff]
        refine ⟨ih true, ?_⟩
        intro d hd
        rintro ⟨_, hd2⟩
        rw [collapse_aux_head_true rest d hd] at hd2
        cases hd2
    · have : collapse_aux (a :: rest) b = a :: collapse_aux rest false := by
        cases b <;> simp [collapse_aux, ha]
      rw [this, no_adj_sep_cons_iff]
      refine ⟨ih false, ?_⟩
      intro d _
      rintro ⟨h1, _⟩
      exact ha h1

theorem clean_of_allowed_not_sep (c : Char) (ha : is_allowed c = true)
    (hs : is_sep c = false) : is_clean_char c = true := by
  simp only [is_allowed, Bool.or_eq_true, beq_iff_eq] at ha
  simp only [is_sep, Bool.or_eq_false_iff, beq_eq_false_iff_ne, ne_eq] at hs
  simp only [is_clean_char, Bool.or_eq_true, beq_iff_eq]
  tauto

theorem collapse_aux_clean (s : List Char) (hall : ∀ c ∈ s, is_allowed c = true) :
    ∀ b, ∀ c ∈ collapse_aux s b, is_clean_char c = true := by
  induction s with
  | nil => intro b c hc; simp [collapse_aux] at hc
  | cons a rest ih =>
    intro b c hc
    have hrest : ∀ c ∈ rest, is_allowed c = true :=
      fun c hc => hall c (List.mem_cons_of_mem a hc)
    by_cases ha : is_sep a = true
    · cases b with
      | true =>
        rw [show collapse_aux (a :: rest) true = collapse_aux rest true by
          simp [collapse_aux, ha]] at hc
        exact ih hrest true c hc
      | false =>
        rw [show collapse_aux (a :: rest) false = '_' :: collapse_aux rest true by
          simp [collapse_aux, ha]] at hc
        rcases List.mem_cons.mp hc with rfl | h
        · decide
        · exact ih hrest true c h
    · rw [show collapse_aux (a :: rest) b = a :: collapse_aux rest false by
        cases b <;> simp [collapse_aux, ha]] at hc
      rcases List.mem_cons.mp hc with rfl | h
      · exact clean_of_allowed_not_sep c (hall c (List.mem_cons_self c rest))
          (by simpa using ha)
      · exact ih hrest false c h

theorem collapse_aux_eq_self (s : List Char) :
    ∀ b, (∀ c ∈ s, is_sep c = true → c = '_') → no_adj_sep s = true →
    (b = true → ∀ d, s.head? = some d → is_sep d = false) →
    collapse_aux s b = s := by
  induction s with
  | nil => intro b _ _ _; rfl
  | cons a rest ih =>
    intro b honly hadj hhead
    obtain ⟨hadj', hpair⟩ := (no_adj_sep_cons_iff a rest).mp hadj
    have honly' : ∀ c ∈ rest, is_sep c = true → c = '_' :=
      fun c hc => honly c (List.mem_cons_of_mem a hc)
    by_cases ha : is_sep a = true
    · have ha' : a = '_' := honly a (List.mem_cons_self a rest) ha
      cases b with
      | true =>
        exact absurd ha (by simp [hhead rfl a rfl])
      | false =>
        rw [show collapse_aux (a :: rest) false = '_' :: collapse_aux rest true by
          simp [collapse_aux, ha]]
        rw [ha']
        congr 1
        apply ih true honly' hadj'
        intro _ d hd
        by_cases hds : is_sep d = true
        · exact absurd ⟨ha, hds⟩ (hpair d hd)
        · simpa using hds
    · rw [show collapse_aux (a :: rest) b = a :: collapse_aux rest false by
        cases b <;> simp [collapse_aux, ha]]
      congr 1
      exact ih false honly' hadj' (by intro h; cases h)

theorem clean_char_facts (c : Char) (h : is_clean_char c = true) :
    isPyWhitespace c = false ∧ (c == '"') = false ∧ (c == squote) = false ∧
    (c == ' ') = false ∧ is_allowed c = true ∧ (is_sep c = true → c = '_') := by
  refine ⟨?_, ?_, ?_, ?_, ?_, ?_⟩
  · cases hw : isPyWhitespace c with
    | false => rfl
    | true =>
      exfalso
      simp only [isPyWhitespace, Bool.or_eq_true, beq_iff_eq] at hw
      rcases hw with ((((rfl | rfl) | rfl) | rfl) | rfl) | rfl <;>
        exact absurd h (by decide)
  · cases hq : (c == '"') with
    | false => rfl
    | true =>
      have : c = '"' := by simpa using hq
      subst this
      exact absurd h (by decide)
  · cases hq : (c == squote) with
    | false => rfl
    | true =>
      have : c = squote := by simpa using hq
      subst this
      exact absurd h (by decide)
  · cases hq : (c == ' ') with
    | false => rfl
    | true =>
      have : c = ' ' := by simpa using hq
      subst this
      exact absurd h (by decide)
  · simp only [is_clean_char, Bool.or_eq_true, beq_iff_eq] at h
    simp only [is_allowed, Bool.or_eq_true, beq_iff_eq]
    tauto
  · intro hs
    simp only [is_sep, Bool.or_eq_true, beq_iff_eq] at hs
    rcases hs with rfl | rfl
    · rfl
    · exact absurd h (by decide)

theorem stage7_props (u : List Char) (hu : ∀ c ∈ u, is_allowed c = true) :
    (∀ c ∈ py_strip is_sep (collapse_runs u), is_clean_char c = true) ∧
    no_adj_sep (py_strip is_sep (collapse_runs u)) = true ∧
    (∀ d, (py_strip is_sep (collapse_runs u)).head? = some d → is_sep d = false) ∧
    (∀ d, (py_strip is_sep (collapse_runs u)).getLast? = some d → is_sep d = false) := by
  have h6c : ∀ c ∈ collapse_runs u, is_clean_char c = true :=
    collapse_aux_clean u hu false
  have h6adj : no_adj_sep (collapse_runs u) = true :=
    collapse_aux_no_adj u false
  refine ⟨?_, ?_, ?_, ?_⟩
  · intro c hc
    rw [py_strip] at hc
    exact h6c c ((List.dropWhile_sublist is_sep).subset (py_rstrip_subset _ _ c hc))
  · exact no_adj_sep_py_rstrip _ _ (no_adj_sep_dropWhile _ _ h6adj)
  · intro d hd
    rw [py_strip] at hd
    rcases py_rstrip_head is_sep ((collapse_runs u).dropWhile is_sep) with hnil | hh
    · rw [hnil] at hd
      cases hd
    · rw [hh] at hd
      exact dropWhile_head_false is_sep (collapse_runs u) d hd
  · intro d hd
    rw [py_strip] at hd
    exact py_rstrip_getLast is_sep _ d hd

theorem final_props (v : List Char) (m : ℕ)
    (hc : ∀ c ∈ v, is_clean_char c = true) (hadj : no_adj_sep v = true)
    (hh : ∀ d, v.head? = some d → is_sep d = false)
    (hl : ∀ d, v.getLast? = some d → is_sep d = false) :
    (∀ c ∈ (if m < v.length then py_rstrip is_sep (v.take m) else v), is_clean_char c = true) ∧
    no_adj_sep (if m < v.length then py_rstrip is_sep (v.take m) else v) = true ∧
    (∀ d, (if m < v.length then py_rstrip is_sep (v.take m) else v).head? = some d →
      is_sep d = false) ∧
    (∀ d, (if m < v.length then py_rstrip is_sep (v.take m) else v).getLast? = some d →
      is_sep d = false) ∧
    (if m < v.length then py_rstrip is_sep (v.take m) else v).length ≤ m := by
  by_cases hm : m < v.length
  · rw [if_pos hm]
    refine ⟨?_, ?_, ?_, ?_, ?_⟩
    · intro c hcm
      exact hc c ((List.take_sublist m v).subset (py_rstrip_subset _ _ c hcm))
    · exact no_adj_sep_py_rstrip _ _ (no_adj_sep_take m v hadj)
    · intro d hd
      rcases py_rstrip_head is_sep (v.take m) with hnil | hhd
      · rw [hnil] at hd
        cases hd
      · rw [hhd] at hd
        exact hh d (head?_take m v d hd)
    · exact py_rstrip_getLast is_sep (v.take m)
    · calc (py_rstrip is_sep (v.take m)).length ≤ (v.take m).length :=
            py_rstrip_length _ _
        _ ≤ m := by rw [List.length_take]; exact min_le_left m v.length
  · rw [if_neg hm]
    exact ⟨hc, hadj, hh, hl, Nat.not_lt.mp hm⟩

theorem core_expand (x : List Char) (m : ℕ) :
    _clean_filename_core x m =
      (if m < (py_strip is_sep (collapse_runs
          (((py_strip (fun c => c == squote) (py_strip (fun c => c == '"')
            (py_strip isPyWhitespace x))).map
              (fun c => if c == ' ' then '_' else c)).filter is_allowed))).length
       then py_rstrip is_sep ((py_strip is_sep (collapse_runs
          (((py_strip (fun c => c == squote) (py_strip (fun c => c == '"')
            (py_strip isPyWhitespace x))).map
              (fun c => if c == ' ' then '_' else c)).filter is_allowed))).take m)
       else py_strip is_sep (collapse_runs
          (((py_strip (fun c => c == squote) (py_strip (fun c => c == '"')
            (py_strip isPyWhitespace x))).map
              (fun c => if c == ' ' then '_' else c)).filter is_allowed))) := rfl

theorem core_props (x : List Char) (m : ℕ) :
    (∀ c ∈ _clean_filename_core x m, is_clean_char c = true) ∧
    no_adj_sep (_clean_filename_core x m) = true ∧
    (∀ d, (_clean_filename_core x m).head? = some d → is_sep d = false) ∧
    (∀ d, (_clean_filename_core x m).getLast? = some d → is_sep d = false) ∧
    (_clean_filename_core x m).length ≤ m := by
  rw [core_expand]
  have hu : ∀ c ∈ ((py_strip (fun c => c == squote) (py_strip (fun c => c == '"')
      (py_strip isPyWhitespace x))).map (fun c => if c == ' ' then '_' else c)).filter
        is_allowed, is_allowed c = true :=
    fun c hcm => (List.mem_filter.mp hcm).2
  obtain ⟨h1, h2, h3, h4⟩ := stage7_props _ hu
  exact final_props _ m h1 h2 h3 h4

theorem core_fixed (y : List Char) (m : ℕ)
    (hclean : ∀ c ∈ y, is_clean_char c = true)
    (hadj : no_adj_sep y = true)
    (hhead : ∀ d, y.head? = some d → is_sep d = false)
    (hlast : ∀ d, y.getLast? = some d → is_sep d = false)
    (hlen : y.length ≤ m) :
    _clean_filename_core y m = y := by
  have h1 : py_strip isPyWhitespace y = y :=
    py_strip_eq_self_of_all _ _ (fun c hc => (clean_char_facts c (hclean c hc)).1)
  have h2 : py_strip (fun c => c == '"') y = y :=
    py_strip_eq_self_of_all _ _ (fun c hc => (clean_char_facts c (hclean c hc)).2.1)
  have h3 : py_strip (fun c => c == squote) y = y :=
    py_strip_eq_self_of_all _ _ (fun c hc => (clean_char_facts c (hclean c hc)).2.2.1)
  have h4 : y.map (fun c => if c == ' ' then '_' else c) = y := by
    apply map_id_of_mem
    intro c hc
    simp [(clean_char_facts c (hclean c hc)).2.2.2.1]
  have h5 : y.filter is_allowed = y :=
    List.filter_eq_self.mpr (fun c hc => (clean_char_facts c (hclean c hc)).2.2.2.2.1)
  have h6 : collapse_runs y = y := by
    rw [collapse_runs]
    exact collapse_aux_eq_self y false
      (fun c hc => (clean_char_facts c (hclean c hc)).2.2.2.2.2) hadj
      (by intro h; cases h)
  have h7 : py_strip is_sep y = y := by
    rw [py_strip]
    have hdw : y.dropWhile is_sep = y := by
      cases y with
      | nil => rfl
      | cons a t =>
        rw [List.dropWhile_cons, hhead a rfl]
        simp
    rw [hdw]
    exact py_rstrip_eq_self _ _ hlast
  rw [core_expand, h1, h2, h3, h4, h5, h6, h7, if_neg (Nat.not_lt.mpr hlen)]

/-- Claim C7 counterexample: `sanitize("", 50, "a b")` returns the
fallback `"a b"` unchanged, but sanitizing that output again yields
`"a_b"`, so the sanitizer is not idempotent on fallback-produced
outputs. -/
theorem C7_counterexample :
    _clean_filename [] 50 "a b".toList = "a b".toList ∧
    _clean_filename (_clean_filename [] 50 "a b".toList) 50 "a b".toList =
      "a_b".toList ∧
    "a_b".toList ≠ "a b".toList := by
  refine ⟨by decide, by decide, by decide⟩

/-- Claim C7 (amended): the sanitizer is idempotent on every input whose
core sanitization (steps 1-6) has at least 3 characters, i.e. whenever
the fallback rule is not triggered; outputs produced via the fallback
rule are returned verbatim and need not be fixed points. -/
theorem C7_sanitizer_idempotent (x orig : List Char) (m : ℕ)
    (h : 3 ≤ (_clean_filename_core x m).length) :
    _clean_filename (_clean_filename x m orig) m orig = _clean_filename x m orig := by
  have hx : _clean_filename x m orig = _clean_filename_core x m := by
    simp only [_clean_filename]
    rw [if_neg (Nat.not_lt.mpr h)]
  obtain ⟨hc, ha, hh, hl, hlen⟩ := core_props x m
  have hcore : _clean_filename_core (_clean_filename_core x m) m =
      _clean_filename_core x m :=
    core_fixed _ m hc ha hh hl hlen
  rw [hx]
  simp only [_clean_filename]
  rw [hcore, if_neg (Nat.not_lt.mpr h)]

/-- Witness for C7: `"hello world!"` core-sanitizes to `"hello_world"`
(11 ≥ 3 characters), and re-sanitizing leaves it unchanged. -/
theorem C7_sanitizer_idempotent_witness :
    _clean_filename (_clean_filename "hello world!".toList 50 "fb".toList) 50
        "fb".toList =
      _clean_filename "hello world!".toList 50 "fb".toList :=
  C7_sanitizer_idempotent "hello world!".toList "fb".toList 50 (by decide)

theorem takeWhile_append_stop (p : Char → Bool) (a : List Char) (d : Char) (b : List Char)
    (ha : ∀ c ∈ a, p c = true) (hd : p d = false) :
    (a ++ d :: b).takeWhile p = a := by
  induction a with
  | nil =>
    rw [List.nil_append, List.takeWhile_cons, hd]
    simp
  | cons c t ih =>
    rw [List.cons_append, List.takeWhile_cons, ha c (List.mem_cons_self c t)]
    simp only [if_true]
    rw [ih (fun c hc => ha c (List.mem_cons_of_mem _ hc))]

theorem takeWhile_all (p : Char → Bool) (s : List Char) (h : ∀ c ∈ s, p c = true) :
    s.takeWhile p = s := by
  induction s with
  | nil => rfl
  | cons c t ih =>
    rw [List.takeWhile_cons, h c (List.mem_cons_self c t)]
    simp only [if_true]
    rw [ih (fun c hc => h c (List.mem_cons_of_mem _ hc))]

/-- When the stem itself contains no dot, the code's before-the-first-dot
fallback coincides with the spec's stem. -/
theorem first_dot_eq_stem (name : List Char)
    (h : (spec_stem name).contains '.' = false) :
    analyze_image_orig_filename name = spec_stem name := by
  by_cases hdot : name.contains '.' = true
  · have hmem : '.' ∈ name.reverse := by
      rw [List.mem_reverse]
      simpa using hdot
    have hsplit := List.takeWhile_append_dropWhile (p := fun c => c != '.')
      (l := name.reverse)
    cases hdw : name.reverse.dropWhile (fun c => c != '.') with
    | nil =>
      exfalso
      rw [hdw, List.append_nil] at hsplit
      have hmem' : ('.' : Char) ∈ name.reverse.takeWhile (fun c => c != '.') := by
        rw [hsplit]
        exact hmem
      have := List.mem_takeWhile_imp hmem'
      simp at this
    | cons e suf =>
      have he : e = '.' := by
        have := dropWhile_head_false (fun c => c != '.') name.reverse e
          (by rw [hdw]; rfl)
        simpa using this
      subst he
      rw [hdw] at hsplit
      have hstem : spec_stem name = suf.reverse := by
        rw [spec_stem, if_pos hdot, hdw]
        simp
      have hname : name =
          suf.reverse ++ '.' :: (name.reverse.takeWhile (fun c => c != '.')).reverse := by
        conv_lhs => rw [← List.reverse_reverse name, ← hsplit]
        rw [List.reverse_append, List.reverse_cons, List.append_assoc]
        simp
      have hnodot : ('.' : Char) ∉ suf.reverse := by
        rw [hstem] at h
        simpa using h
      rw [hstem, analyze_image_orig_filename]
      conv_lhs => rw [hname]
      apply takeWhile_append_stop
      · intro c hc
        simp only [bne_iff_ne, ne_eq]
        intro hceq
        rw [hceq] at hc
        exact hnodot hc
      · simp
  · have hstem : spec_stem name = name := by
      rw [spec_stem, if_neg hdot]
    have hnodot : ('.' : Char) ∉ name := by
      simpa using hdot
    rw [hstem, analyze_image_orig_filename]
    apply takeWhile_all
    intro c hc
    simp only [bne_iff_ne, ne_eq]
    intro hceq
    rw [hceq] at hc
    exact hnodot hc

/-- Claim C6 counterexample: for the source file `a.b.jpg` the Namer's
fallback (`name.split('.')[0]`) is `"a"`, not the stem `"a.b"` — so with a
raw response that sanitizes too short, the sanitizer returns `"a"` where
the claim promises the stem. -/
theorem C6_counterexample :
    _clean_filename [] 50 (analyze_image_orig_filename "a.b.jpg".toList) =
      "a".toList ∧
    spec_stem "a.b.jpg".toList = "a.b".toList ∧
    "a".toList ≠ "a.b".toList := by
  refine ⟨by decide, by decide, by decide⟩

/-- Claim C6 (amended): any raw text whose core sanitization has fewer
than 3 characters makes the sanitizer return the fallback argument
exactly and unchanged; the fallback `analyze_image` passes is the part of
the source filename before its *first* dot, which equals the filename's
stem exactly when the stem contains no dot. -/
theorem C6_fallback (x orig name : List Char) (m : ℕ)
    (hshort : (_clean_filename_core x m).length < 3)
    (hstem : (spec_stem name).contains '.' = false) :
    _clean_filename x m orig = orig ∧
    analyze_image_orig_filename name = spec_stem name := by
  constructor
  · simp only [_clean_filename]
    rw [if_pos hshort]
  · exact first_dot_eq_stem name hstem

/-- Witness for C6: the raw text `"!!"` sanitizes to the empty string, so
the fallback is returned; for `photo.jpg` the fallback equals the stem. -/
theorem C6_fallback_witness :
    _clean_filename "!!".toList 50 "photo".toList = "photo".toList ∧
    analyze_image_orig_filename "photo.jpg".toList = spec_stem "photo.jpg".toList :=
  C6_fallback "!!".toList "photo".toList "photo.jpg".toList 50 (by decide) (by decide)

/-! ### Batch orchestration (`stamp_folder` / `_add_logo_single`)

A discovered file is a directory path (components relative to the input
directory), a stem, an extension (with its leading dot, per
`pathlib.Path.suffix`/`Path.stem`), and whether `Image.open` succeeds on
it.  Filesystem effects become an event trace; exceptions that propagate
out of `stamp_folder` become a `raised` result. -/

structure SrcFile where
  dir : List String
  stem : String
  ext : String
  readable : Bool
deriving DecidableEq

/-- Embeds `Path.name`: the base filename without the directory. -/
def SrcFile.name (f : SrcFile) : String :=
  f.stem ++ f.ext

def image_extensions : List String :=
  [".jpg", ".jpeg", ".png"]

/-- Embeds `str.lower()` on the ASCII extensions at hand: character-wise
`Char.toLower`. -/
def py_lower (s : String) : String :=
  String.mk (s.data.map Char.toLower)

/-- The DISCOVER step: `rglob("*")` (or `glob("*")` when non-recursive,
i.e. immediate children only) filtered by `p.suffix.lower() in
image_extensions`. -/
def discover (files : List SrcFile) (recursive : Bool) : List SrcFile :=
  (if recursive then files else files.filter (fun f => f.dir.isEmpty)).filter
    (fun f => image_extensions.contains (py_lower f.ext))

/-- The duplicate-filename loop of `stamp_folder` (lines 45-51): walk the
paths building `filename_dict`; on a repeated base name raise carrying the
stored first path and the current path. -/
def checkDuplicatesAux : List (String × SrcFile) → List SrcFile →
    Except (SrcFile × SrcFile) (List (String × SrcFile))
  | seen, [] => .ok seen
  | seen, p :: rest =>
    match seen.lookup p.name with
    | some prev => .error (prev, p)
    | none => checkDuplicatesAux (seen ++ [(p.name, p)]) rest

def checkDuplicates (paths : List SrcFile) :
    Except (SrcFile × SrcFile) (List (String × SrcFile)) :=
  checkDuplicatesAux [] paths

inductive Event where
  | openedImage (f : SrcFile) (ok : Bool)
  | openedLogo (ok : Bool)
  | saved (path : String) (src : SrcFile)
  | logoErrorPrinted
  | outputDirErrorPrinted
deriving DecidableEq

inductive BatchError where
  | duplicate (first second : SrcFile)
  | missingApiKey
deriving DecidableEq

inductive StampResult where
  | raised (e : BatchError)
  | returned (events : List Event)
deriving DecidableEq

/-- The output-filename determination of `_add_logo_single`
(lines 130-153): the AI name when the analyzer is active and returned
one, else the original stem; the optional suffix goes before the source
file's extension.  The source directory is never consulted. -/
def output_filename (useAi : Bool) (aiName : Option String) (f : SrcFile)
    (suffix : String) : String :=
  if useAi then
    match aiName with
    | some ai => if suffix ≠ "" then ai ++ suffix ++ f.ext else ai ++ f.ext
    | none => if suffix ≠ "" then f.stem ++ suffix ++ f.ext else f.name
  else
    if suffix ≠ "" then f.stem ++ suffix ++ f.ext else f.name

/-- One `_add_logo_single` call: open the source (unreadable → warn and
return), open the logo (unreadable → raise, the `Bool` of the result),
composite and save.  The returned flag says whether `ValueError` was
raised. -/
def _add_logo_single (f : SrcFile) (logoReadable : Bool) (saveDir : String)
    (suffix : String) (useAi : Bool) (aiName : Option String) :
    List Event × Bool :=
  if f.readable = false then
    ([.openedImage f false], false)
  else if logoReadable = false then
    ([.openedImage f true, .openedLogo false], true)
  else
    ([.openedImage f true, .openedLogo true,
      .saved (saveDir ++ "/" ++ output_filename useAi aiName f suffix) f], false)

/-- The PROCESS loop of `stamp_folder` (lines 76-93): each file in turn;
a raised `ValueError` is printed and breaks the loop. -/
def process_loop (logoReadable : Bool) (saveDir suffix : String)
    (useAi : Bool) (aiNames : SrcFile → Option String) : List SrcFile → List Event
  | [] => []
  | f :: rest =>
    let r := _add_logo_single f logoReadable saveDir suffix useAi (aiNames f)
    if r.2 then
      r.1 ++ [.logoErrorPrinted]
    else
      r.1 ++ process_loop logoReadable saveDir suffix useAi aiNames rest

structure StampArgs where
  files : List SrcFile
  im_dir : String
  logoReadable : Bool
  save_dir : Option String
  outputDirExists : Bool
  padding : ℤ
  logo_scale : ℚ
  opacity : ℚ
  recursive : Bool
  suffix : String
  use_ai_naming : Bool
  openai_api_key : Option String
  ai_names : SrcFile → Option String

/-- Embedding of `stamp_folder`: discovery, duplicate validation (raises),
the AI-key check (raises), output-directory preparation (derived
directory already existing prints an error and returns), then the
per-file loop. -/
def stamp_folder (a : StampArgs) : StampResult :=
  match checkDuplicates (discover a.files a.recursive) with
  | .error pq => .raised (.duplicate pq.1 pq.2)
  | .ok _ =>
    if a.use_ai_naming = true ∧ a.openai_api_key = none then
      .raised .missingApiKey
    else
      match a.save_dir with
      | none =>
        if a.outputDirExists then
          .returned [.outputDirErrorPrinted]
        else
          .returned (process_loop a.logoReadable (a.im_dir ++ "/output") a.suffix
            a.use_ai_naming a.ai_names (discover a.files a.recursive))
      | some d =>
        .returned (process_loop a.logoReadable d a.suffix
          a.use_ai_naming a.ai_names (discover a.files a.recursive))

/-- The saved-file events of a trace. -/
def saved_events (evs : List Event) : List Event :=
  evs.filter (fun e => match e with | .saved _ _ => true | _ => false)

/-- How many times the logo file was opened in a trace. -/
def logo_open_count (evs : List Event) : ℕ :=
  evs.countP (fun e => match e with | .openedLogo _ => true | _ => false)

/-- The final content of the output directory at a path: the last save to
that path wins (`Image.save` overwrites). -/
def finalFS (evs : List Event) (p : String) : Option SrcFile :=
  evs.foldl (fun acc e =>
    match e with
    | .saved q src => if q = p then some src else acc
    | _ => acc) none

theorem lookup_some_mem (seen : List (String × SrcFile)) (k : String) (v : SrcFile)
    (h : seen.lookup k = some v) : (k, v) ∈ seen := by
  induction seen with
  | nil => cases h
  | cons a t ih =>
    cases hk : (k == a.1) with
    | true =>
      rw [List.lookup_cons, hk] at h
      have hkey : k = a.1 := by simpa using hk
      have hv : a.2 = v := by simpa using h
      exact List.mem_cons.mpr (Or.inl (by rw [hkey, ← hv]))
    | false =>
      rw [List.lookup_cons, hk] at h
      exact List.mem_cons_of_mem a (ih (by simpa using h))

theorem lookup_some_key_mem (seen : List (String × SrcFile)) (k : String) (v : SrcFile)
    (h : seen.lookup k = some v) : k ∈ seen.map Prod.fst := by
  have := lookup_some_mem seen k v h
  exact List.mem_map.mpr ⟨(k, v), this, rfl⟩

theorem lookup_none_not_mem (seen : List (String × SrcFile)) (k : String)
    (h : seen.lookup k = none) : k ∉ seen.map Prod.fst := by
  induction seen with
  | nil => simp
  | cons a t ih =>
    cases hk : (k == a.1) with
    | true =>
      rw [List.lookup_cons, hk] at h
      simp at h
    | false =>
      rw [List.lookup_cons, hk] at h
      simp only [List.map_cons, List.mem_cons]
      rintro (rfl | hm)
      · simp at hk
      · exact ih (by simpa using h) hm

theorem checkDup_ok_of_nodup (l : List SrcFile) :
    ∀ seen : List (String × SrcFile),
      (seen.map Prod.fst ++ l.map SrcFile.name).Nodup →
      ∃ d, checkDuplicatesAux seen l = .ok d := by
  induction l with
  | nil => exact fun seen _ => ⟨seen, rfl⟩
  | cons p rest ih =>
    intro seen hnd
    have hnone : seen.lookup p.name = none := by
      cases hl : seen.lookup p.name with
      | none => rfl
      | some v =>
        exfalso
        have hk := lookup_some_key_mem seen p.name v hl
        have hdisj := (List.nodup_append.mp hnd).2.2
        exact hdisj hk (by simp)
    rw [show checkDuplicatesAux seen (p :: rest) =
        checkDuplicatesAux (seen ++ [(p.name, p)]) rest by
      simp [checkDuplicatesAux, hnone]]
    apply ih
    rw [List.map_append, List.append_assoc]
    simpa using hnd

theorem checkDup_error_of_dup (l : List SrcFile) :
    ∀ seen : List (String × SrcFile),
      ¬ (seen.map Prod.fst ++ l.map SrcFile.name).Nodup →
      (seen.map Prod.fst).Nodup →
      (∀ pr ∈ seen, pr.2.name = pr.1) →
      ∃ p q, checkDuplicatesAux seen l = .error (p, q) ∧ p.name = q.name := by
  induction l with
  | nil =>
    intro seen hnd hk _
    exact absurd (by simpa using hk) hnd
  | cons p rest ih =>
    intro seen hnd hk hinv
    cases hl : seen.lookup p.name with
    | some prev =>
      refine ⟨prev, p, ?_, ?_⟩
      · simp [checkDuplicatesAux, hl]
      · exact hinv (p.name, prev) (lookup_some_mem seen p.name prev hl)
    | none =>
      rw [show checkDuplicatesAux seen (p :: rest) =
          checkDuplicatesAux (seen ++ [(p.name, p)]) rest by
        simp [checkDuplicatesAux, hl]]
      apply ih
      · intro hc
        apply hnd
        rw [List.map_append, List.append_assoc] at hc
        simpa using hc
      · rw [List.map_append]
        simp only [List.map_cons, List.map_nil]
        rw [List.nodup_append]
        refine ⟨hk, List.nodup_singleton _, ?_⟩
        intro x hx hx2
        simp only [List.mem_singleton] at hx2
        subst hx2
        exact lookup_none_not_mem seen p.name hl hx
      · intro pr hpr
        rcases List.mem_append.mp hpr with h | h
        · exact hinv pr h
        · simp only [List.mem_singleton] at h
          rw [h]

/-- Claim C1: two discovered files sharing a base filename make the batch
raise a duplicate error carrying both colliding paths before anything is
processed or written (the result is `raised`, so the trace is empty);
with all base filenames unique, validation succeeds. -/
theorem C1_duplicate_validation (a : StampArgs) :
    (¬ ((discover a.files a.recursive).map SrcFile.name).Nodup →
      ∃ p q, stamp_folder a = .raised (.duplicate p q) ∧ p.name = q.name ∧
        ∀ evs, stamp_folder a ≠ .returned evs) ∧
    (((discover a.files a.recursive).map SrcFile.name).Nodup →
      ∃ d, checkDuplicates (discover a.files a.recursive) = .ok d) := by
  constructor
  · intro hdup
    obtain ⟨p, q, herr, hname⟩ :=
      checkDup_error_of_dup (discover a.files a.recursive) []
        (by simpa using hdup) (by simp) (by simp)
    refine ⟨p, q, ?_, hname, ?_⟩
    · rw [stamp_folder, checkDuplicates] at *
      rw [herr]
    · intro evs hret
      rw [stamp_folder, checkDuplicates, herr] at hret
      cases hret
  · intro hnd
    exact checkDup_ok_of_nodup (discover a.files a.recursive) [] (by simpa using hnd)

/-- The two colliding files of Scenario D: `a/x.jpg` and `b/x.jpg`. -/
def scenario_d_args : StampArgs :=
  { files := [⟨["a"], "x", ".jpg", true⟩, ⟨["b"], "x", ".jpg", true⟩]
    im_dir := "in"
    logoReadable := true
    save_dir := some "out"
    outputDirExists := false
    padding := 10
    logo_scale := 1/5
    opacity := 1
    recursive := true
    suffix := ""
    use_ai_naming := false
    openai_api_key := none
    ai_names := fun _ => none }

/-- Witness for C1 (Scenario D): the two same-named files make discovery
non-unique and the batch returns no trace at all (nothing processed,
nothing saved). -/
theorem C1_duplicate_validation_witness :
    ¬ ((discover scenario_d_args.files scenario_d_args.recursive).map
        SrcFile.name).Nodup ∧
    stamp_folder scenario_d_args ≠ .returned [] ∧
    stamp_folder scenario_d_args =
      .raised (.duplicate ⟨["a"], "x", ".jpg", true⟩ ⟨["b"], "x", ".jpg", true⟩) := by
  obtain ⟨p, q, h1, h2, h3⟩ :=
    (C1_duplicate_validation scenario_d_args).1 (by decide)
  exact ⟨by decide, h3 [], by decide⟩

theorem getLast?_cons_of_mem (x a : Event) (l : List Event) (ha : a ∈ l) :
    (x :: l).getLast? = l.getLast? := by
  cases l with
  | nil => cases ha
  | cons b t => exact List.getLast?_cons_cons

theorem loop_logo_bad (saveDir suffix : String) (useAi : Bool)
    (ai : SrcFile → Option String) (files : List SrcFile) :
    saved_events (process_loop false saveDir suffix useAi ai files) = [] ∧
    logo_open_count (process_loop false saveDir suffix useAi ai files) ≤ 1 ∧
    (Event.logoErrorPrinted ∈ process_loop false saveDir suffix useAi ai files →
      (process_loop false saveDir suffix useAi ai files).getLast? =
        some Event.logoErrorPrinted) := by
  induction files with
  | nil =>
    refine ⟨rfl, by simp [logo_open_count, process_loop], ?_⟩
    intro h
    simp [process_loop] at h
  | cons f rest ih =>
    obtain ⟨ih1, ih2, ih3⟩ := ih
    by_cases hr : f.readable = false
    · have hstep : process_loop false saveDir suffix useAi ai (f :: rest) =
          Event.openedImage f false :: process_loop false saveDir suffix useAi ai rest := by
        simp [process_loop, _add_logo_single, hr]
      rw [hstep]
      refine ⟨?_, ?_, ?_⟩
      · simpa [saved_events] using ih1
      · simpa [logo_open_count] using ih2
      · intro hmem
        have hmem' : Event.logoErrorPrinted ∈
            process_loop false saveDir suffix useAi ai rest := by
          rcases List.mem_cons.mp hmem with h | h
          · cases h
          · exact h
        rw [getLast?_cons_of_mem _ _ _ hmem']
        exact ih3 hmem'
    · have hr' : f.readable = true := by simpa using hr
      have hstep : process_loop false saveDir suffix useAi ai (f :: rest) =
          [Event.openedImage f true, Event.openedLogo false,
            Event.logoErrorPrinted] := by
        simp [process_loop, _add_logo_single, hr']
      rw [hstep]
      exact ⟨rfl, by simp [logo_open_count], fun _ => rfl⟩

theorem loop_logo_good (saveDir suffix : String) (useAi : Bool)
    (ai : SrcFile → Option String) (files : List SrcFile) :
    logo_open_count (process_loop true saveDir suffix useAi ai files) =
      files.countP (fun f => f.readable) ∧
    (saved_events (process_loop true saveDir suffix useAi ai files)).length =
      files.countP (fun f => f.readable) := by
  induction files with
  | nil => exact ⟨rfl, rfl⟩
  | cons f rest ih =>
    obtain ⟨ih1, ih2⟩ := ih
    by_cases hr : f.readable = true
    · have hstep : process_loop true saveDir suffix useAi ai (f :: rest) =
          Event.openedImage f true :: Event.openedLogo true ::
            Event.saved (saveDir ++ "/" ++ output_filename useAi (ai f) f suffix) f ::
              process_loop true saveDir suffix useAi ai rest := by
        simp [process_loop, _add_logo_single, hr]
      rw [hstep]
      constructor
      · simpa [logo_open_count, List.countP_cons, hr] using ih1
      · simpa [saved_events, List.countP_cons, hr] using ih2
    · have hr' : f.readable = false := by simpa using hr
      have hstep : process_loop true saveDir suffix useAi ai (f :: rest) =
          Event.openedImage f false :: process_loop true saveDir suffix useAi ai rest := by
        simp [process_loop, _add_logo_single, hr']
      rw [hstep]
      constructor
      · simpa [logo_open_count, List.countP_cons, hr'] using ih1
      · simpa [saved_events, List.countP_cons, hr'] using ih2

/-- A batch over two readable images with a readable logo. -/
def two_image_args : StampArgs :=
  { files := [⟨[], "p1", ".jpg", true⟩, ⟨[], "p2", ".jpg", true⟩]
    im_dir := "in"
    logoReadable := true
    save_dir := some "out"
    outputDirExists := false
    padding := 10
    logo_scale := 1/5
    opacity := 1
    recursive := true
    suffix := ""
    use_ai_naming := false
    openai_api_key := none
    ai_names := fun _ => none }

/-- Claim C8 counterexample: over a batch of two readable images the logo
file is opened twice — once per image, not once per batch. -/
theorem C8_counterexample :
    stamp_folder two_image_args =
      .returned [.openedImage ⟨[], "p1", ".jpg", true⟩ true, .openedLogo true,
        .saved "out/p1.jpg" ⟨[], "p1", ".jpg", true⟩,
        .openedImage ⟨[], "p2", ".jpg", true⟩ true, .openedLogo true,
        .saved "out/p2.jpg" ⟨[], "p2", ".jpg", true⟩] ∧
    logo_open_count [.openedImage ⟨[], "p1", ".jpg", true⟩ true, .openedLogo true,
        .saved "out/p1.jpg" ⟨[], "p1", ".jpg", true⟩,
        .openedImage ⟨[], "p2", ".jpg", true⟩ true, .openedLogo true,
        .saved "out/p2.jpg" ⟨[], "p2", ".jpg", true⟩] = 2 ∧
    (2 : ℕ) ≠ 1 := by
  refine ⟨by decide, by decide, by decide⟩

/-- Claim C8 (amended): the logo is opened once per image whose source
could be read — not once per batch; when the logo is unreadable the batch
aborts at the first readable image: nothing is saved, the logo is tried
at most once, and the printed logo error ends the trace (no image is
processed after it). -/
theorem C8_logo_open (a : StampArgs) (d : String) (evs : List Event)
    (hd : a.save_dir = some d) (hret : stamp_folder a = .returned evs) :
    (a.logoReadable = true →
      logo_open_count evs =
        (discover a.files a.recursive).countP (fun f => f.readable)) ∧
    (a.logoReadable = false →
      saved_events evs = [] ∧ logo_open_count evs ≤ 1 ∧
        (Event.logoErrorPrinted ∈ evs →
          evs.getLast? = some Event.logoErrorPrinted)) := by
  have hevs : evs = process_loop a.logoReadable d a.suffix
      a.use_ai_naming a.ai_names (discover a.files a.recursive) := by
    rw [stamp_folder] at hret
    cases hchk : checkDuplicates (discover a.files a.recursive) with
    | error pq =>
      rw [hchk] at hret
      cases hret
    | ok s =>
      rw [hchk] at hret
      by_cases hkey : a.use_ai_naming = true ∧ a.openai_api_key = none
      · rw [if_pos hkey] at hret
        cases hret
      · rw [if_neg hkey, hd] at hret
        cases hret
        rfl
  constructor
  · intro hlogo
    rw [hevs, hlogo]
    exact (loop_logo_good d a.suffix a.use_ai_naming a.ai_names
      (discover a.files a.recursive)).1
  · intro hlogo
    rw [hevs, hlogo]
    exact loop_logo_bad d a.suffix a.use_ai_naming a.ai_names
      (discover a.files a.recursive)

/-- A batch whose logo file cannot be read. -/
def bad_logo_args : StampArgs :=
  { two_image_args with logoReadable := false }

/-- Witness for C8: with an unreadable logo the two-image batch opens the
logo once, saves nothing, and ends on the printed logo error. -/
theorem C8_logo_open_witness :
    saved_events [.openedImage ⟨[], "p1", ".jpg", true⟩ true, .openedLogo false,
        .logoErrorPrinted] = [] ∧
    logo_open_count [.openedImage ⟨[], "p1", ".jpg", true⟩ true, .openedLogo false,
        .logoErrorPrinted] ≤ 1 := by
  have h := (C8_logo_open bad_logo_args "out"
      [.openedImage ⟨[], "p1", ".jpg", true⟩ true, .openedLogo false,
        .logoErrorPrinted] rfl (by decide)).2 rfl
  exact ⟨h.1, h.2.1⟩

/-- A batch called with opacity 2 and logo scale 3/2, both out of range. -/
def bad_config_args : StampArgs :=
  { files := [⟨[], "x", ".jpg", true⟩]
    im_dir := "in"
    logoReadable := true
    save_dir := some "out"
    outputDirExists := false
    padding := 10
    logo_scale := 3/2
    opacity := 2
    recursive := true
    suffix := ""
    use_ai_naming := false
    openai_api_key := none
    ai_names := fun _ => none }

/-- Claim C9 counterexample: `stamp_folder` called with opacity 2 and
logo scale 3/2 (both outside their documented ranges) is not rejected:
the batch runs to completion and saves an output file.  Range validation
lives only in the CLI shell (`parser.error`), not in the entry point. -/
theorem C9_counterexample :
    (1 : ℚ) < bad_config_args.opacity ∧
    (1 : ℚ) < bad_config_args.logo_scale ∧
    stamp_folder bad_config_args =
      .returned [.openedImage ⟨[], "x", ".jpg", true⟩ true, .openedLogo true,
        .saved "out/x.jpg" ⟨[], "x", ".jpg", true⟩] ∧
    saved_events [.openedImage ⟨[], "x", ".jpg", true⟩ true, .openedLogo true,
        .saved "out/x.jpg" ⟨[], "x", ".jpg", true⟩] ≠ [] := by
  refine ⟨by norm_num [bad_config_args], by norm_num [bad_config_args],
    by decide, by decide⟩

/-- Claim C9 (amended): of the three configuration errors only the
missing-AI-key one is checked by the batch entry point; it raises after
discovery and duplicate validation but before the output directory is
prepared and before any image is opened, composited, or saved (the
result is `raised`, with no event trace).  Out-of-range opacity or logo
scale is not rejected by `stamp_folder` (only by the CLI shell). -/
theorem C9_missing_key (a : StampArgs)
    (hai : a.use_ai_naming = true) (hkey : a.openai_api_key = none)
    (hnodup : ((discover a.files a.recursive).map SrcFile.name).Nodup) :
    stamp_folder a = .raised .missingApiKey ∧
    ∀ evs, stamp_folder a ≠ .returned evs := by
  obtain ⟨d, hok⟩ :=
    checkDup_ok_of_nodup (discover a.files a.recursive) [] (by simpa using hnodup)
  have hres : stamp_folder a = .raised .missingApiKey := by
    simp only [stamp_folder, checkDuplicates]
    rw [hok]
    simp [hai, hkey]
  refine ⟨hres, ?_⟩
  intro evs h
  rw [hres] at h
  cases h

/-- A batch with AI naming requested but no API key supplied. -/
def missing_key_args : StampArgs :=
  { bad_config_args with
    opacity := 1
    logo_scale := 1/5
    use_ai_naming := true
    openai_api_key := none }

/-- Witness for C9: the missing-key batch raises and returns no trace. -/
theorem C9_missing_key_witness :
    stamp_folder missing_key_args = .raised .missingApiKey :=
  (C9_missing_key missing_key_args rfl rfl (by decide)).1

/-- Claim C10: the output filename depends only on the determined stem,
the suffix and the source extension — never on the source subdirectory —
so with AI naming two distinct source images whose determined stems and
extensions coincide are saved to the same path, and the later save is
what the output directory finally holds at that path (no uniqueness
check runs after naming). -/
theorem C10_flattened_output (ai : SrcFile → Option String) (suffix d : String)
    (f g : SrcFile)
    (hf : f.readable = true) (hg : g.readable = true)
    (hext : f.ext = g.ext) (hai : ai f = ai g) (hsome : (ai f).isSome = true) :
    (∀ (u : Bool) (n : Option String) (sfx : String) (p q : SrcFile),
      p.stem = q.stem → p.ext = q.ext →
      output_filename u n p sfx = output_filename u n q sfx) ∧
    process_loop true d suffix true ai [f, g] =
      [.openedImage f true, .openedLogo true,
       .saved (d ++ "/" ++ output_filename true (ai f) f suffix) f,
       .openedImage g true, .openedLogo true,
       .saved (d ++ "/" ++ output_filename true (ai f) f suffix) g] ∧
    finalFS (process_loop true d suffix true ai [f, g])
        (d ++ "/" ++ output_filename true (ai f) f suffix) = some g := by
  have hpath : output_filename true (ai g) g suffix =
      output_filename true (ai f) f suffix := by
    rw [← hai]
    obtain ⟨nm, hnm⟩ := Option.isSome_iff_exists.mp hsome
    rw [hnm]
    simp only [output_filename]
    rw [← hext]
    simp
  have hloop : process_loop true d suffix true ai [f, g] =
      [.openedImage f true, .openedLogo true,
       .saved (d ++ "/" ++ output_filename true (ai f) f suffix) f,
       .openedImage g true, .openedLogo true,
       .saved (d ++ "/" ++ output_filename true (ai f) f suffix) g] := by
    simp [process_loop, _add_logo_single, hf, hg, hpath]
  refine ⟨?_, hloop, ?_⟩
  · intro u n sfx p q hstem hext'
    simp only [output_filename, SrcFile.name]
    rw [hstem, hext']
  · rw [hloop]
    simp [finalFS]

def c10_f : SrcFile := ⟨["a"], "cat", ".jpg", true⟩

def c10_g : SrcFile := ⟨["b"], "dog", ".jpg", true⟩

def c10_ai : SrcFile → Option String := fun _ => some "sunset"

/-- Witness for C10: two distinct images in different subdirectories,
both AI-named `sunset`, are saved to the same `out/sunset.jpg`, and the
final content at that path is the later image. -/
theorem C10_flattened_output_witness :
    process_loop true "out" "" true c10_ai [c10_f, c10_g] =
      [.openedImage c10_f true, .openedLogo true, .saved "out/sunset.jpg" c10_f,
       .openedImage c10_g true, .openedLogo true, .saved "out/sunset.jpg" c10_g] ∧
    finalFS (process_loop true "out" "" true c10_ai [c10_f, c10_g]) "out/sunset.jpg" =
      some c10_g := by
  obtain ⟨h1, h2, h3⟩ := C10_flattened_output c10_ai "" "out" c10_f c10_g rfl rfl rfl rfl rfl
  have hp : ("out" : String) ++ "/" ++ output_filename true (c10_ai c10_f) c10_f "" =
      "out/sunset.jpg" := by decide
  rw [hp] at h2 h3
  exact ⟨h2, h3⟩

end LogoPaster
